import Mathlib

/-!
# Verification of the raster-classification-to-polygon pipeline (`src/app.py`)

Shallow embedding of the pure computational core of `app.py`:

* `normalize_data` — affine rescaling `(data - min_val) / (max_val - min_val)`
  with `np.nanmin` / `np.nanmax` defaults;
* `raster_to_polygons` — `np.digitize(data, bins, right=True).astype(np.uint8)`
  classification, the `~np.isnan(data)` mask, and the boundary-tracing call
  `rasterio.features.shapes` (third-party; modelled from the spec);
* `visualize_polygons` — one folium `GeoJson` shape per GeoDataFrame row with
  the fill colour `#{hex(255 - value * 25)[2:]:>02}0000`.

Numeric values are represented by `FF`: either a finite rational (standing in
for a finite float64; rounding is not modelled, arithmetic is exact) or one of
the IEEE special values NaN, +inf, -inf, which is exactly what the unguarded
division in `normalize_data` can produce.  A raster cell holds `Option ℚ`:
`none` is a missing (NaN) sample.  Grids are lists of rows.
-/

/-- IEEE-style value: finite rational, NaN, or a signed infinity. -/
inductive FF where
  | fin : ℚ → FF
  | nan : FF
  | pinf : FF
  | ninf : FF
deriving DecidableEq, Repr

namespace FF

/-- `np.isnan` on a single value. -/
def isNan : FF → Bool
  | nan => true
  | _ => false

/-- IEEE subtraction on `FF` (exact on finite values; NaN propagates;
`(+inf) - (+inf)` and `(-inf) - (-inf)` are NaN). -/
def sub : FF → FF → FF
  | nan, _ => nan
  | _, nan => nan
  | fin a, fin b => fin (a - b)
  | fin _, pinf => ninf
  | fin _, ninf => pinf
  | pinf, pinf => nan
  | pinf, _ => pinf
  | ninf, ninf => nan
  | ninf, _ => ninf

/-- IEEE division on `FF`: division of a nonzero finite value by (+)0 gives a
signed infinity, `0/0` gives NaN (numpy emits a `RuntimeWarning` but raises no
exception), `a/±inf` is 0, `inf/inf` is NaN.  The zero divisor produced by
`normalize_data` is `max - min = +0`, so the positive-zero sign convention is
the faithful one. -/
def div : FF → FF → FF
  | nan, _ => nan
  | _, nan => nan
  | fin a, fin b =>
      if b = 0 then (if a = 0 then nan else if 0 < a then pinf else ninf)
      else fin (a / b)
  | pinf, fin b => if 0 ≤ b then pinf else ninf
  | ninf, fin b => if 0 ≤ b then ninf else pinf
  | fin _, pinf => fin 0
  | fin _, ninf => fin 0
  | pinf, pinf => nan
  | pinf, ninf => nan
  | ninf, pinf => nan
  | ninf, ninf => nan

end FF

/-- A raw raster cell: `some v` is a finite sample, `none` is missing (NaN). -/
def toFF : Option ℚ → FF
  | none => FF.nan
  | some v => FF.fin v

/-- Cell accessor on a list-of-rows grid: `grid[i][j]` when in range. -/
def cellAt {α : Type} (g : List (List α)) (c : ℕ × ℕ) : Option α :=
  (g[c.1]?).bind (fun row => row[c.2]?)

/-- All finite (non-NaN) samples of a raw grid, row-major — the values that
`np.nanmin` / `np.nanmax` aggregate over. -/
def finiteVals (g : List (List (Option ℚ))) : List ℚ :=
  g.flatten.filterMap id

/-- Minimum of a list of rationals (`none` on the empty list). -/
def listMin : List ℚ → Option ℚ
  | [] => none
  | a :: t => some (match listMin t with | none => a | some m => min a m)

/-- Maximum of a list of rationals (`none` on the empty list). -/
def listMax : List ℚ → Option ℚ
  | [] => none
  | a :: t => some (match listMax t with | none => a | some m => max a m)

/-- `np.nanmin(data)`: minimum ignoring NaN; NaN itself when the grid has no
finite sample (numpy warns `All-NaN slice` and returns NaN). -/
def nanminFF (g : List (List (Option ℚ))) : FF :=
  match listMin (finiteVals g) with
  | some m => FF.fin m
  | none => FF.nan

/-- `np.nanmax(data)`, analogously. -/
def nanmaxFF (g : List (List (Option ℚ))) : FF :=
  match listMax (finiteVals g) with
  | some m => FF.fin m
  | none => FF.nan

/-- `min_val = min_val if min_val is not None else np.nanmin(data)` from
`normalize_data`. -/
def resolvedMin (g : List (List (Option ℚ))) : Option ℚ → FF
  | some m => FF.fin m
  | none => nanminFF g

/-- `max_val = max_val if max_val is not None else np.nanmax(data)` from
`normalize_data`. -/
def resolvedMax (g : List (List (Option ℚ))) : Option ℚ → FF
  | some m => FF.fin m
  | none => nanmaxFF g

/-- `normalize_data(data, min_val=None, max_val=None)` from `src/app.py`:
resolve the optional bounds, then elementwise
`(data - min_val) / (max_val - min_val)`.
No guard, no clamping, no validation of the bounds. -/
def normalize_data (g : List (List (Option ℚ)))
    (min_val max_val : Option ℚ) : List (List FF) :=
  g.map (fun row => row.map (fun x =>
    FF.div (FF.sub (toFF x) (resolvedMin g min_val))
      (FF.sub (resolvedMax g max_val) (resolvedMin g min_val))))

/-- `np.digitize(x, bins, right=True)` for monotonically non-decreasing
`bins` (the only shape used in this pipeline; numpy computes
`searchsorted(bins, x, side='left')`, i.e. the number of edges strictly below
`x`, so that `bins[i-1] < x <= bins[i]` yields `i`). -/
def digitizeRight (bins : List ℚ) (x : ℚ) : ℕ :=
  bins.countP (fun b => decide (b < x))

/-- One cell of `np.digitize(data, bins, right=True)` on IEEE values:
`searchsorted` places NaN and `+inf` after every edge and `-inf` before
every edge. -/
def binCellNat (bins : List ℚ) : FF → ℕ
  | FF.fin v => digitizeRight bins v
  | FF.nan => bins.length
  | FF.pinf => bins.length
  | FF.ninf => 0

/-- One cell of `np.digitize(...).astype(np.uint8)`: the class index reduced
modulo 2^8 by the unsigned-byte cast. -/
def binCell (bins : List ℚ) (x : FF) : ℕ :=
  binCellNat bins x % 256

/-- `binned_data = np.digitize(data, bins, right=True).astype(np.uint8)`
from `raster_to_polygons`. -/
def binnedGrid (bins : List ℚ) (g : List (List FF)) : List (List ℕ) :=
  g.map (fun row => row.map (binCell bins))

/-- `mask = ~np.isnan(data)` from `raster_to_polygons`. -/
def maskGrid (g : List (List FF)) : List (List Bool) :=
  g.map (fun row => row.map (fun x => !x.isNan))

/-- A rasterio affine transform `(a, b, c, d, e, f)`: pixel `(row, col)` maps
to the geographic point `(a*col + b*row + c, d*col + e*row + f)`. -/
structure AffineT where
  a : ℚ
  b : ℚ
  c : ℚ
  d : ℚ
  e : ℚ
  f : ℚ
deriving DecidableEq

/-- Apply an affine transform to a pixel `(row, col)`. -/
def applyAffine (t : AffineT) (cell : ℕ × ℕ) : ℚ × ℚ :=
  (t.a * cell.2 + t.b * cell.1 + t.c, t.d * cell.2 + t.e * cell.1 + t.f)

/-- A cell is inside the grid and carries a non-NaN value — it survives the
mask `~np.isnan(data)` of `raster_to_polygons`. -/
def cellIsUnmasked (g : List (List FF)) (c : ℕ × ℕ) : Prop :=
  ∃ x, cellAt g c = some x ∧ x.isNan = false

/-- A cell inside the grid holding a missing (NaN) sample. -/
def cellIsMissing (g : List (List FF)) (c : ℕ × ℕ) : Prop :=
  cellAt g c = some FF.nan

/-- The class index the binned grid holds at a cell. -/
def classAt (g : List (List FF)) (bins : List ℚ) (c : ℕ × ℕ) : Option ℕ :=
  (cellAt g c).map (binCell bins)

/-- 4-connectivity between two pixels (the default connectivity of
`rasterio.features.shapes`). -/
def adjacent4 (c d : ℕ × ℕ) : Prop :=
  (c.1 = d.1 ∧ (c.2 + 1 = d.2 ∨ d.2 + 1 = c.2)) ∨
  (c.2 = d.2 ∧ (c.1 + 1 = d.1 ∨ d.1 + 1 = c.1))

/-- Modelled from the spec: one growth step of the region tracing performed by
the third-party call `rasterio.features.shapes(binned_data, mask=mask,
transform=transform)` — "connected runs of cells sharing the same class
index" with the library's default 4-connectivity; masked cells never join a
region.  The library itself is not part of this repository's sources. -/
def sameShapeStep (g : List (List FF)) (bins : List ℚ) (c d : ℕ × ℕ) : Prop :=
  cellIsUnmasked g c ∧ cellIsUnmasked g d ∧
    classAt g bins c = classAt g bins d ∧ adjacent4 c d

/-- Modelled from the spec: two cells belong to the same traced shape iff a
chain of 4-connected, unmasked, equal-class cells joins them. -/
def sameShape (g : List (List FF)) (bins : List ℚ) : ℕ × ℕ → ℕ × ℕ → Prop :=
  Relation.ReflTransGen (sameShapeStep g bins)

/-- The region (set of covered cells) of the shape through cell `c`. -/
def shapeRegion (g : List (List FF)) (bins : List ℚ) (c : ℕ × ℕ) :
    Set (ℕ × ℕ) :=
  {d | sameShape g bins c d}

/-- Modelled from the spec: the geometries produced by the `shapes` generator,
each polygon represented by the set of grid cells it covers. -/
def shapeRegions (g : List (List FF)) (bins : List ℚ) : Set (Set (ℕ × ℕ)) :=
  {S | ∃ c, cellIsUnmasked g c ∧ S = shapeRegion g bins c}

/-- Modelled from the spec: the `(geometry, value)` pairs yielded by the
`shapes` generator — each traced region tagged with its class index. -/
def shapeRecords (g : List (List FF)) (bins : List ℚ) :
    Set (Set (ℕ × ℕ) × ℕ) :=
  {r | ∃ c k, cellIsUnmasked g c ∧ classAt g bins c = some k ∧
      r = (shapeRegion g bins c, k)}

/-- The GeoDataFrame built by `raster_to_polygons`: polygon records in
geographic coordinates plus the fixed CRS tag. -/
structure VectorLayer where
  records : Set (Set (ℚ × ℚ) × ℕ)
  crs : String

/-- `raster_to_polygons(data, transform, bins)` from `src/app.py`: digitize,
mask, trace shapes, convert each traced region to geographic coordinates via
the transform, and assemble the records with `crs="EPSG:4326"`. -/
def raster_to_polygons (g : List (List FF)) (t : AffineT) (bins : List ℚ) :
    VectorLayer :=
  { records := Set.image (fun r => (Set.image (applyAffine t) r.1, r.2))
      (shapeRecords g bins)
    crs := "EPSG:4326" }

/-- One row of the GeoDataFrame consumed by `visualize_polygons`. -/
structure PolyRecord where
  geometry : Set (ℚ × ℚ)
  value : ℕ

/-- The folium style dictionary produced by the style function. -/
structure ShapeStyle where
  fillColor : String
  color : String
  weight : ℕ
  fillOpacity : ℚ
deriving DecidableEq

/-- `hex(n)[2:]` in Python: for `n >= 0`, `hex` gives `0x…` and the slice
keeps the lowercase hex digits; for `n < 0`, `hex` gives `-0x…` and the
slice keeps `x` followed by the digits of `|n|`. -/
def pyHexSlice (n : ℤ) : String :=
  if 0 ≤ n then String.mk (Nat.toDigits 16 n.toNat)
  else "x" ++ String.mk (Nat.toDigits 16 n.natAbs)

/-- The format spec `:>02`: right-justify to width 2, filling with `0`. -/
def padTwo (s : String) : String :=
  if s.length < 2 then String.mk (List.replicate (2 - s.length) '0') ++ s
  else s

/-- The fill colour `f"#{hex(255 - value * 25)[2:]:>02}0000"` computed by the
style function in `visualize_polygons`. -/
def fillColorOf (value : ℕ) : String :=
  "#" ++ padTwo (pyHexSlice (255 - (value : ℤ) * 25)) ++ "0000"

/-- The style dictionary returned by the lambda in `visualize_polygons` for a
given `value`.  In the source the lambda is created inside the row loop with
the default argument `value=row["value"]`; a default argument is evaluated
when the lambda is created, so each shape's style function carries the class
value of its own row (early binding, not a late-bound closure over a shared
loop variable). -/
def styleFor (value : ℕ) : ShapeStyle :=
  { fillColor := fillColorOf value
    color := "blue"
    weight := 1
    fillOpacity := 1/2 }

/-- One `folium.GeoJson` layer added to the map: the row's geometry plus the
style its bound style function produces. -/
structure RenderedShape where
  geom : Set (ℚ × ℚ)
  style : ShapeStyle

/-- `visualize_polygons(gdf, …)` from `src/app.py`, restricted to the shapes
it adds to the folium map: one `GeoJson` per GeoDataFrame row, styled by the
lambda whose `value` default argument froze that row's class value. -/
def visualize_polygons (gdf : List PolyRecord) : List RenderedShape :=
  gdf.map (fun row => { geom := row.geometry, style := styleFor row.value })

/-- A valid two-digit lowercase hex byte, as a colour component requires. -/
def isHexByteStr (s : String) : Bool :=
  s.length = 2 && s.toList.all (fun ch => ch.isDigit || ('a' ≤ ch && ch ≤ 'f'))

example : fillColorOf 0 = "#ff0000" := by decide
example : fillColorOf 10 = "#050000" := by decide
example : fillColorOf 11 = "#x140000" := by decide
example : isHexByteStr "05" = true := by decide
example : isHexByteStr "x14" = false := by decide

example : digitizeRight [(0 : ℚ), 1] 1 = 1 := by
  norm_num [digitizeRight, List.countP, List.countP.go]
example : digitizeRight [(0 : ℚ), 1] (1/2) = 1 := by
  norm_num [digitizeRight, List.countP, List.countP.go]
example : digitizeRight [(0 : ℚ), 1] 2 = 2 := by
  norm_num [digitizeRight, List.countP, List.countP.go]
example : digitizeRight [(0 : ℚ), 1] 0 = 0 := by
  norm_num [digitizeRight, List.countP, List.countP.go]
example : digitizeRight [(1/2 : ℚ)] (3/10) = 0 := by
  norm_num [digitizeRight, List.countP, List.countP.go]
example : normalize_data [[some 5, some 5]] none none = [[FF.nan, FF.nan]] := by
  norm_num [normalize_data, resolvedMin, resolvedMax, nanminFF, nanmaxFF, finiteVals,
    listMin, listMax, toFF, FF.sub, FF.div]
example : normalize_data [[some 5]] (some 3) (some 3) = [[FF.pinf]] := by
  norm_num [normalize_data, resolvedMin, resolvedMax, toFF, FF.sub, FF.div]
example : normalize_data [[some (-1)]] (some 1) (some 0) = [[FF.fin 2]] := by
  norm_num [normalize_data, resolvedMin, resolvedMax, toFF, FF.sub, FF.div]
example : normalize_data [[some 0, some 2], [none, some 1]] none none =
    [[FF.fin 0, FF.fin 1], [FF.nan, FF.fin (1/2)]] := by
  norm_num [normalize_data, resolvedMin, resolvedMax, nanminFF, nanmaxFF, finiteVals,
    listMin, listMax, toFF, FF.sub, FF.div]

/-! ## Properties of the digitize step -/

theorem digitizeRight_eq_zero {bins : List ℚ} {x : ℚ}
    (h : ∀ b ∈ bins, x ≤ b) : digitizeRight bins x = 0 := by
  rw [digitizeRight, List.countP_eq_zero]
  intro b hb
  simpa using not_lt.mpr (h b hb)

theorem digitizeRight_eq_length {bins : List ℚ} {x : ℚ}
    (h : ∀ b ∈ bins, b < x) : digitizeRight bins x = bins.length := by
  rw [digitizeRight, List.countP_eq_length]
  intro b hb
  simpa using h b hb

theorem head_le_of_pairwise {bins : List ℚ} {b0 : ℚ}
    (hs : bins.Pairwise (· < ·)) (h0 : bins.head? = some b0) :
    ∀ b ∈ bins, b0 ≤ b := by
  cases bins with
  | nil => simp at h0
  | cons a t =>
    have ha : a = b0 := by simpa using h0
    subst ha
    intro b hb
    rcases List.mem_cons.mp hb with rfl | hbt
    · exact le_refl b
    · exact le_of_lt ((List.pairwise_cons.mp hs).1 b hbt)

theorem le_getLast_of_pairwise {bins : List ℚ} {bl : ℚ}
    (hs : bins.Pairwise (· < ·)) (hl : bins.getLast? = some bl) :
    ∀ b ∈ bins, b ≤ bl := by
  induction bins with
  | nil => simp at hl
  | cons a t ih =>
    cases t with
    | nil =>
      have : a = bl := by simpa [List.getLast?] using hl
      subst this
      intro b hb
      have : b = a := by simpa using hb
      exact le_of_eq this
    | cons a1 t1 =>
      rw [List.getLast?_cons_cons] at hl
      have hsp := List.pairwise_cons.mp hs
      have hall := ih hsp.2 hl
      intro b hb
      rcases List.mem_cons.mp hb with rfl | hbt
      · have hblmem : bl ∈ a1 :: t1 := List.mem_of_mem_getLast? hl
        exact le_of_lt (hsp.1 bl hblmem)
      · exact hall b hbt

theorem digitizeRight_interval {bins : List ℚ} {x : ℚ}
    (hs : bins.Pairwise (· < ·)) {i : ℕ} (hi : i + 1 < bins.length)
    (hlo : bins[i] < x) (hhi : x ≤ bins[i + 1]) :
    digitizeRight bins x = i + 1 := by
  have hsplit :
      digitizeRight bins x =
        List.countP (fun b => decide (b < x)) (bins.take (i + 1)) +
        List.countP (fun b => decide (b < x)) (bins.drop (i + 1)) := by
    rw [digitizeRight]
    conv_lhs => rw [← List.take_append_drop (i + 1) bins]
    exact List.countP_append _ _ _
  have hpg := List.pairwise_iff_getElem.mp hs
  have htake :
      List.countP (fun b => decide (b < x)) (bins.take (i + 1)) =
        (bins.take (i + 1)).length := by
    rw [List.countP_eq_length]
    intro b hb
    rcases List.mem_iff_getElem.mp hb with ⟨j, hj, rfl⟩
    rw [List.getElem_take]
    have hj' : j < i + 1 := by
      have := hj
      rw [List.length_take] at this
      omega
    rcases Nat.lt_succ_iff_lt_or_eq.mp hj' with hji | hje
    · exact decide_eq_true (lt_trans (hpg j i (by omega) (by omega) hji) hlo)
    · subst hje
      exact decide_eq_true hlo
  have hdrop :
      List.countP (fun b => decide (b < x)) (bins.drop (i + 1)) = 0 := by
    rw [List.countP_eq_zero]
    intro b hb
    rcases List.mem_iff_getElem.mp hb with ⟨j, hj, rfl⟩
    rw [List.getElem_drop]
    have hjlen : i + 1 + j < bins.length := by
      have := hj
      rw [List.length_drop] at this
      omega
    have hle : bins[i + 1] ≤ bins[i + 1 + j] := by
      rcases Nat.eq_zero_or_pos j with hj0 | hjpos
      · subst hj0
        simp
      · exact le_of_lt (hpg (i + 1) (i + 1 + j) hi hjlen (by omega))
    simpa using not_lt.mpr (le_trans hhi hle)
  rw [hsplit, htake, hdrop, List.length_take]
  omega

/-! ## Claim C1 — bin assignment convention -/

/-- C1, counterexample: the claim states that a value *at* the last bin edge
is assigned the overflow class `len(bin_edges)`.  On the strictly increasing
edges `[0, 1]` the value `1` equals the last edge, yet
`np.digitize(..., right=True)` assigns class `1`, not the overflow class `2`:
with right-inclusive intervals the last edge belongs to the final ordinary
bin `(0, 1]`. -/
theorem c1_counterexample :
    List.Pairwise (· < ·) [(0 : ℚ), 1] ∧
    binCell [(0 : ℚ), 1] (FF.fin 1) = 1 ∧
    binCell [(0 : ℚ), 1] (FF.fin 1) ≠ ([(0 : ℚ), 1]).length := by
  refine ⟨by decide, ?_, ?_⟩ <;>
    norm_num [binCell, binCellNat, digitizeRight, List.countP, List.countP.go]

/-- C1, amended: for a strictly increasing bin-edge sequence,
`np.digitize(value, bins, right=True)` assigns the index of the right-inclusive
interval `(bins[i], bins[i+1]]` containing the value; values below *or at* the
first edge are assigned class 0, and values *strictly above* the last edge are
assigned the overflow class `len(bins)`. -/
theorem c1_amended_classification (bins : List ℚ) (x : ℚ)
    (hs : bins.Pairwise (· < ·)) :
    (∀ b0, bins.head? = some b0 → x ≤ b0 → digitizeRight bins x = 0) ∧
    (∀ bl, bins.getLast? = some bl → bl < x →
      digitizeRight bins x = bins.length) ∧
    (∀ i, i + 1 < bins.length →
      bins[i]! < x → x ≤ bins[i + 1]! → digitizeRight bins x = i + 1) := by
  refine ⟨?_, ?_, ?_⟩
  · intro b0 h0 hx
    exact digitizeRight_eq_zero
      (fun b hb => le_trans hx (head_le_of_pairwise hs h0 b hb))
  · intro bl hl hx
    exact digitizeRight_eq_length
      (fun b hb => lt_of_le_of_lt (le_getLast_of_pairwise hs hl b hb) hx)
  · intro i hi hlo hhi
    have hgi : bins[i]! = bins[i] := getElem!_pos bins i (by omega)
    have hgi1 : bins[i + 1]! = bins[i + 1] := getElem!_pos bins (i + 1) hi
    rw [hgi] at hlo
    rw [hgi1] at hhi
    exact digitizeRight_interval hs hi hlo hhi

/-- C1, witness: on the edges `[0, 2]` the value `1` lies in the interval
`(0, 2]` and is assigned class 1. -/
theorem c1_witness : digitizeRight [(0 : ℚ), 2] 1 = 1 :=
  (c1_amended_classification [(0 : ℚ), 2] 1 (by decide)).2.2 0 (by decide)
    (by decide) (by decide)

/-! ## Claim C5 — every non-missing cell gets exactly one class in range -/

theorem binCellNat_le (bins : List ℚ) (x : FF) :
    binCellNat bins x ≤ bins.length := by
  cases x with
  | fin v => exact List.countP_le_length _
  | nan => exact le_refl _
  | pinf => exact le_refl _
  | ninf => exact Nat.zero_le _

theorem binCell_le (bins : List ℚ) (x : FF) :
    binCell bins x ≤ bins.length := by
  rw [binCell]
  rcases lt_or_le (binCellNat bins x) 256 with h | h
  · rw [Nat.mod_eq_of_lt h]
    exact binCellNat_le bins x
  · exact le_trans (le_of_lt (Nat.mod_lt _ (by norm_num)))
      (le_trans h (binCellNat_le bins x))

theorem cellAt_map {α β : Type} (f : α → β) (g : List (List α)) (c : ℕ × ℕ) :
    cellAt (g.map (fun row => row.map f)) c = (cellAt g c).map f := by
  rw [cellAt, cellAt, List.getElem?_map]
  cases g[c.1]? with
  | none => rfl
  | some row => simp [List.getElem?_map]

/-- C5: for every non-degenerate (strictly increasing, at least two edges)
bin sequence and every grid, each non-missing cell of the classified grid
`np.digitize(data, bins, right=True).astype(np.uint8)` is assigned exactly
one class index — the value `binCell bins x` determined by its own sample —
and that index is at most `len(bins)` (hence in `[0, len(bins)]`, the lower
bound being automatic for a natural number). -/
theorem c5_class_index_range (bins : List ℚ) (g : List (List FF))
    (i j : ℕ) (x : FF)
    (_hinc : List.Pairwise (· < ·) bins) (_hlen : 2 ≤ bins.length)
    (hcell : cellAt g (i, j) = some x) (_hnm : x.isNan = false) :
    cellAt (binnedGrid bins g) (i, j) = some (binCell bins x) ∧
    binCell bins x ≤ bins.length := by
  constructor
  · rw [binnedGrid, cellAt_map, hcell]
    rfl
  · exact binCell_le bins x

/-- C5, witness: the 1×1 grid `[[2]]` with edges `[0, 1]` classifies its only
cell to the overflow class `2 = len(bins)`. -/
theorem c5_witness :
    cellAt (binnedGrid [(0 : ℚ), 1] [[FF.fin 2]]) (0, 0) =
      some (binCell [(0 : ℚ), 1] (FF.fin 2)) ∧
    binCell [(0 : ℚ), 1] (FF.fin 2) ≤ ([(0 : ℚ), 1]).length :=
  c5_class_index_range [(0 : ℚ), 1] [[FF.fin 2]] 0 0 (FF.fin 2)
    (by decide) (by decide) (by decide) (by decide)

/-! ## Claims C2, C3, C10 — normalization -/

theorem listMin_le {l : List ℚ} :
    ∀ {m : ℚ}, listMin l = some m → ∀ v ∈ l, m ≤ v := by
  induction l with
  | nil => intro m h; simp [listMin] at h
  | cons a t ih =>
    intro m h
    simp only [listMin] at h
    cases ht : listMin t with
    | none =>
      rw [ht] at h
      simp only [Option.some.injEq] at h
      cases t with
      | nil =>
        intro v hv
        have hva : v = a := by simpa using hv
        rw [hva, ← h]
      | cons b t' => simp [listMin] at ht
    | some mt =>
      rw [ht] at h
      simp only [Option.some.injEq] at h
      intro v hv
      rw [← h]
      rcases List.mem_cons.mp hv with rfl | hvt
      · exact min_le_left _ _
      · exact le_trans (min_le_right _ _) (ih ht v hvt)

theorem le_listMax {l : List ℚ} :
    ∀ {m : ℚ}, listMax l = some m → ∀ v ∈ l, v ≤ m := by
  induction l with
  | nil => intro m h; simp [listMax] at h
  | cons a t ih =>
    intro m h
    simp only [listMax] at h
    cases ht : listMax t with
    | none =>
      rw [ht] at h
      simp only [Option.some.injEq] at h
      cases t with
      | nil =>
        intro v hv
        have hva : v = a := by simpa using hv
        rw [hva, ← h]
      | cons b t' => simp [listMax] at ht
    | some mt =>
      rw [ht] at h
      simp only [Option.some.injEq] at h
      intro v hv
      rw [← h]
      rcases List.mem_cons.mp hv with rfl | hvt
      · exact le_max_left _ _
      · exact le_trans (ih ht v hvt) (le_max_right _ _)

theorem mem_finiteVals {g : List (List (Option ℚ))} {v : ℚ} {c : ℕ × ℕ}
    (h : cellAt g c = some (some v)) : v ∈ finiteVals g := by
  rw [cellAt] at h
  cases hrow : g[c.1]? with
  | none =>
    rw [hrow] at h
    simp at h
  | some row =>
    rw [hrow] at h
    simp only [Option.some_bind] at h
    exact List.mem_filterMap.mpr
      ⟨some v, List.mem_flatten.mpr
        ⟨row, List.getElem?_mem hrow, List.getElem?_mem h⟩, rfl⟩

/-- C2, counterexample: the claim promises a value in `[0, 1]` at every
non-missing index whenever the bounds are omitted, for *every* grid.  On the
uniform grid `[[5, 5]]` the implicit bounds collide (`nanmin = nanmax = 5`),
the division is `0/0`, and the non-missing cell `(0,0)` comes out NaN — not a
finite value in `[0, 1]`. -/
theorem c2_counterexample :
    cellAt [[some (5 : ℚ), some 5]] (0, 0) = some (some 5) ∧
    cellAt (normalize_data [[some (5 : ℚ), some 5]] none none) (0, 0) =
      some FF.nan ∧
    ∀ w : ℚ, cellAt (normalize_data [[some (5 : ℚ), some 5]] none none) (0, 0) ≠
      some (FF.fin w) := by
  have h2 : cellAt (normalize_data [[some (5 : ℚ), some 5]] none none) (0, 0) =
      some FF.nan := by
    norm_num [cellAt, normalize_data, resolvedMin, resolvedMax, nanminFF, nanmaxFF,
          finiteVals, listMin, listMax, toFF, FF.sub, FF.div]
  refine ⟨by decide, h2, ?_⟩
  intro w h
  rw [h2] at h
  simp at h

/-- C2, amended: for every grid with omitted bounds whose non-missing samples
are not all equal (implicit `nanmin < nanmax`), every non-missing index is
rescaled to `(v - min) / (max - min)`, which lies in `[0, 1]`, and every
missing index stays missing (NaN); the implicit bounds are computed over the
finite samples only. -/
theorem c2_amended_normalize_range (g : List (List (Option ℚ))) (mn mx : ℚ)
    (hmin : listMin (finiteVals g) = some mn)
    (hmax : listMax (finiteVals g) = some mx)
    (hlt : mn < mx) (i j : ℕ) :
    (∀ v : ℚ, cellAt g (i, j) = some (some v) →
      cellAt (normalize_data g none none) (i, j) =
        some (FF.fin ((v - mn) / (mx - mn))) ∧
      0 ≤ (v - mn) / (mx - mn) ∧ (v - mn) / (mx - mn) ≤ 1) ∧
    (cellAt g (i, j) = some none →
      cellAt (normalize_data g none none) (i, j) = some FF.nan) := by
  have hmn : resolvedMin g none = FF.fin mn := by
    rw [resolvedMin, nanminFF, hmin]
  have hmx : resolvedMax g none = FF.fin mx := by
    rw [resolvedMax, nanmaxFF, hmax]
  have hden : mx - mn ≠ 0 := sub_ne_zero.mpr (ne_of_gt hlt)
  constructor
  · intro v hv
    have hmem := mem_finiteVals hv
    have hvmn : mn ≤ v := listMin_le hmin v hmem
    have hvmx : v ≤ mx := le_listMax hmax v hmem
    refine ⟨?_, ?_, ?_⟩
    · rw [normalize_data, cellAt_map, hv, hmn, hmx]
      simp [toFF, FF.sub, FF.div, hden]
    · exact div_nonneg (sub_nonneg.mpr hvmn) (le_of_lt (sub_pos.mpr hlt))
    · exact (div_le_one (sub_pos.mpr hlt)).mpr (sub_le_sub_right hvmx mn)
  · intro hv
    rw [normalize_data, cellAt_map, hv, hmn, hmx]
    simp [toFF, FF.sub, FF.div]

/-- C2, witness: on the grid `[[0, 2], [NaN, 1]]` with omitted bounds the
non-missing cell `(1,1)` is rescaled to `(1-0)/(2-0) ∈ [0, 1]`. -/
theorem c2_witness :
    cellAt (normalize_data [[some (0 : ℚ), some 2], [none, some 1]] none none)
      (1, 1) = some (FF.fin (((1 : ℚ) - 0) / (2 - 0))) ∧
    (0 : ℚ) ≤ ((1 : ℚ) - 0) / (2 - 0) ∧ ((1 : ℚ) - 0) / (2 - 0) ≤ 1 :=
  (c2_amended_normalize_range [[some (0 : ℚ), some 2], [none, some 1]] 0 2
    (by decide) (by decide) (by decide) 1 1).1 1 (by decide)

/-- C3: behaviour of the code at the degenerate range.  `normalize_data` has
no degenerate-range policy: with implicit colliding bounds (uniform grid
`[[5, 5]]`) it returns a grid of NaN (`0/0`, numpy raises no error but emits a
warning), and with explicit equal bounds it returns infinities
(`(5-3)/(3-3) = +inf`) — neither a grid of zeros nor a `DegenerateRangeError`,
which is the defect §9 of the spec records. -/
theorem c3_degenerate_range_behavior :
    normalize_data [[some (5 : ℚ), some 5]] none none = [[FF.nan, FF.nan]] ∧
    normalize_data [[some (5 : ℚ)]] (some 3) (some 3) = [[FF.pinf]] := by
  constructor <;>
    norm_num [normalize_data, resolvedMin, resolvedMax, nanminFF, nanmaxFF,
      finiteVals, listMin, listMax, toFF, FF.sub, FF.div]

/-- C10, counterexample: the claim asserts that every non-missing value below
`min_val` normalizes to a negative result, for every explicit bounds pair.
With the reversed bounds `min_val = 1 > max_val = 0` (nothing validates the
order) the value `-1 < min_val` maps to `(-1-1)/(0-1) = 2`, which is
positive. -/
theorem c10_counterexample :
    normalize_data [[some (-1 : ℚ)]] (some 1) (some 0) = [[FF.fin 2]] ∧
    (-1 : ℚ) < 1 ∧ ¬((2 : ℚ) < 0) := by
  refine ⟨?_, by decide, by decide⟩
  norm_num [normalize_data, resolvedMin, resolvedMax, toFF, FF.sub, FF.div]

/-- C10, amended: with explicit bounds `min_val < max_val`, `normalize_data`
applies the affine rescale `(x - min_val) / (max_val - min_val)` with no
clamping and no validation: every non-missing value below `min_val` yields a
negative result and every non-missing value above `max_val` yields a result
exceeding 1. -/
theorem c10_amended_affine_unclamped (g : List (List (Option ℚ)))
    (mn mx : ℚ) (hlt : mn < mx) (i j : ℕ) (v : ℚ)
    (hv : cellAt g (i, j) = some (some v)) :
    cellAt (normalize_data g (some mn) (some mx)) (i, j) =
      some (FF.fin ((v - mn) / (mx - mn))) ∧
    (v < mn → (v - mn) / (mx - mn) < 0) ∧
    (mx < v → 1 < (v - mn) / (mx - mn)) := by
  have hden : mx - mn ≠ 0 := sub_ne_zero.mpr (ne_of_gt hlt)
  refine ⟨?_, ?_, ?_⟩
  · rw [normalize_data, cellAt_map, hv]
    simp [resolvedMin, resolvedMax, toFF, FF.sub, FF.div, hden]
  · intro hvlt
    exact div_neg_of_neg_of_pos (sub_neg.mpr hvlt) (sub_pos.mpr hlt)
  · intro hvgt
    exact (one_lt_div (sub_pos.mpr hlt)).mpr (sub_lt_sub_right hvgt mn)

/-- C10, witness: with bounds `0 < 1` the value `-1` (below `min_val`)
normalizes to `(-1-0)/(1-0) = -1 < 0`. -/
theorem c10_witness :
    cellAt (normalize_data [[some (-1 : ℚ)]] (some 0) (some 1)) (0, 0) =
      some (FF.fin (((-1 : ℚ) - 0) / (1 - 0))) ∧
    ((-1 : ℚ) < 0 → ((-1 : ℚ) - 0) / (1 - 0) < 0) ∧
    ((1 : ℚ) < -1 → 1 < ((-1 : ℚ) - 0) / (1 - 0)) :=
  c10_amended_affine_unclamped [[some (-1 : ℚ)]] 0 1 (by decide) 0 0 (-1)
    (by decide)

/-! ## Claim C4 — bin-edge validation -/

/-- C4: behaviour of the code at the input the claim says must fail.
`raster_to_polygons` performs no validation of `bins` whatsoever — no length
check, no strict-increase check, and no `FormatError` exists anywhere in the
source.  On the one-element bin list `[0.5]` (which the spec requires to fail
with `FormatError`) classification simply proceeds: `np.digitize` accepts any
monotonic bin list, the cell `0.3` is assigned class 0, the mask keeps it, and
the GeoDataFrame is assembled with its usual CRS. -/
theorem c4_no_bin_validation :
    binnedGrid [(1/2 : ℚ)] [[FF.fin (3/10)]] = [[0]] ∧
    maskGrid [[FF.fin (3/10)]] = [[true]] ∧
    (raster_to_polygons [[FF.fin (3/10)]] ⟨1, 0, 0, 0, 1, 0⟩
      [(1/2 : ℚ)]).crs = "EPSG:4326" := by
  refine ⟨?_, ?_, rfl⟩
  · norm_num [binnedGrid, binCell, binCellNat, digitizeRight, List.countP,
      List.countP.go]
  · simp [maskGrid, FF.isNan]

/-! ## Claim C6 — polygon tiling of the non-missing footprint -/

theorem sameShapeStep_symm (g : List (List FF)) (bins : List ℚ) :
    Symmetric (sameShapeStep g bins) := by
  intro c d h
  obtain ⟨hc, hd, hcl, hadj⟩ := h
  refine ⟨hd, hc, hcl.symm, ?_⟩
  unfold adjacent4 at hadj ⊢
  omega

theorem sameShape_symm (g : List (List FF)) (bins : List ℚ) :
    Symmetric (sameShape g bins) :=
  Relation.ReflTransGen.symmetric (sameShapeStep_symm g bins)

theorem unmasked_of_sameShape {g : List (List FF)} {bins : List ℚ}
    {c d : ℕ × ℕ} (hc : cellIsUnmasked g c) (h : sameShape g bins c d) :
    cellIsUnmasked g d := by
  induction h with
  | refl => exact hc
  | tail _hab hbd _ih => exact hbd.2.1

theorem shapeRegion_eq_of_common_mem {g : List (List FF)} {bins : List ℚ}
    {c1 c2 x : ℕ × ℕ} (h1 : sameShape g bins c1 x)
    (h2 : sameShape g bins c2 x) :
    shapeRegion g bins c1 = shapeRegion g bins c2 := by
  have h12 : sameShape g bins c1 c2 :=
    Relation.ReflTransGen.trans h1 (sameShape_symm g bins h2)
  ext d
  constructor
  · intro hd
    exact Relation.ReflTransGen.trans (sameShape_symm g bins h12) hd
  · intro hd
    exact Relation.ReflTransGen.trans h12 hd

/-- C6: the traced shapes tile the non-missing footprint of the raster.
Every cell covered by some shape is a non-missing in-grid cell and
conversely every non-missing cell is covered; two distinct shapes never
overlap; missing (NaN) cells are excluded from vectorization entirely,
belonging to no shape.  (The `shapes` tracer is third-party; it is modelled
from the spec's boundary-tracing contract, with each geometry represented by
the set of cells it covers.) -/
theorem c6_polygon_tiling (g : List (List FF)) (bins : List ℚ) :
    (∀ c : ℕ × ℕ,
      (∃ S ∈ shapeRegions g bins, c ∈ S) ↔ cellIsUnmasked g c) ∧
    (∀ S ∈ shapeRegions g bins, ∀ T ∈ shapeRegions g bins,
      S ≠ T → S ∩ T = ∅) ∧
    (∀ c : ℕ × ℕ, cellIsMissing g c → ∀ S ∈ shapeRegions g bins, c ∉ S) := by
  have hcover : ∀ c : ℕ × ℕ,
      (∃ S ∈ shapeRegions g bins, c ∈ S) ↔ cellIsUnmasked g c := by
    intro c
    constructor
    · rintro ⟨S, ⟨c0, hc0, rfl⟩, hcS⟩
      exact unmasked_of_sameShape hc0 hcS
    · intro hc
      exact ⟨shapeRegion g bins c, ⟨c, hc, rfl⟩, Relation.ReflTransGen.refl⟩
  refine ⟨hcover, ?_, ?_⟩
  · rintro S ⟨c1, _hc1, rfl⟩ T ⟨c2, _hc2, rfl⟩ hne
    rw [Set.eq_empty_iff_forall_not_mem]
    rintro x ⟨hx1, hx2⟩
    exact hne (shapeRegion_eq_of_common_mem hx1 hx2)
  · intro c hmiss S hS hcS
    have hun : cellIsUnmasked g c := (hcover c).mp ⟨S, hS, hcS⟩
    obtain ⟨x, hx, hxn⟩ := hun
    rw [cellIsMissing] at hmiss
    rw [hmiss] at hx
    have : FF.nan = x := by simpa using hx
    rw [← this] at hxn
    simp [FF.isNan] at hxn

/-- C6, witness: on the 1×1 grid `[[1]]` the cell `(0,0)` is covered by a
shape exactly because it is non-missing. -/
theorem c6_witness :
    (∃ S ∈ shapeRegions [[FF.fin 1]] [(0 : ℚ)], (0, 0) ∈ S) ↔
      cellIsUnmasked [[FF.fin 1]] (0, 0) :=
  (c6_polygon_tiling [[FF.fin 1]] [(0 : ℚ)]).1 (0, 0)

/-! ## Claim C7 — determinism of classify-and-vectorize -/

/-- C7: `raster_to_polygons` is deterministic — the embedded pipeline
(digitize, mask, trace, transform, assemble) is a pure function of the grid,
the transform and the bin edges, so two invocations on identical inputs
produce identical vector layers; the output object fully determines the
geometries, class values and their arrangement, so nothing about the result
(ordering included) can differ between the two runs.  (`st.cache_data`
memoization changes nothing observable for equal inputs.) -/
theorem c7_deterministic (g1 g2 : List (List FF)) (t1 t2 : AffineT)
    (b1 b2 : List ℚ) (hg : g1 = g2) (ht : t1 = t2) (hb : b1 = b2) :
    raster_to_polygons g1 t1 b1 = raster_to_polygons g2 t2 b2 := by
  subst hg
  subst ht
  subst hb
  rfl

/-- C7, witness: two invocations on the same concrete 1×1 raster, identity
transform and single bin edge agree. -/
theorem c7_witness :
    raster_to_polygons [[FF.fin 1]] ⟨1, 0, 0, 0, 1, 0⟩ [(0 : ℚ)] =
      raster_to_polygons [[FF.fin 1]] ⟨1, 0, 0, 0, 1, 0⟩ [(0 : ℚ)] :=
  c7_deterministic [[FF.fin 1]] [[FF.fin 1]] ⟨1, 0, 0, 0, 1, 0⟩
    ⟨1, 0, 0, 0, 1, 0⟩ [(0 : ℚ)] [(0 : ℚ)] rfl rfl rfl

/-! ## Claim C8 — one shape per record, style bound to its own class value -/

/-- C8: `visualize_polygons` emits exactly one stylable shape per polygon
record, and the fill colour of the `i`-th shape is `styleFor` applied to the
`i`-th record's own `value` — a pure function of that record's class value.
In the source this holds because the style lambda is created with the default
argument `value=row["value"]`, which Python evaluates at lambda-creation time
inside the loop iteration, so no shape reads the final value of a shared loop
variable. -/
theorem c8_style_per_record (gdf : List PolyRecord) :
    (visualize_polygons gdf).length = gdf.length ∧
    ∀ i, ∀ hi : i < (visualize_polygons gdf).length,
      ∀ hi' : i < gdf.length,
      (visualize_polygons gdf).get ⟨i, hi⟩ =
        { geom := (gdf.get ⟨i, hi'⟩).geometry
          style := styleFor (gdf.get ⟨i, hi'⟩).value } := by
  constructor
  · simp [visualize_polygons]
  · intro i hi hi'
    simp only [visualize_polygons, List.get_eq_getElem, List.getElem_map]

/-- C8, witness: a single record with class value 3 renders to a single shape
carrying that record's geometry and the style computed from value 3. -/
theorem c8_witness :
    (visualize_polygons [PolyRecord.mk Set.univ 3]).length = 1 ∧
    (visualize_polygons [PolyRecord.mk Set.univ 3]).get
        ⟨0, by simp [visualize_polygons]⟩ =
      { geom := Set.univ, style := styleFor 3 } := by
  have h := c8_style_per_record [PolyRecord.mk Set.univ 3]
  exact ⟨h.1, h.2 0 (by simp [visualize_polygons]) (by simp)⟩

/-! ## Claim C9 — fill-colour arithmetic leaves the byte range -/

/-- C9: for class counts admitting class value 11 (e.g. the 11 strictly
increasing edges `[0,…,10]`, where any sample above the last edge digitizes
to 11), the style arithmetic `255 - value * 25 = -20` is negative — outside
the byte range `[0, 255]` — and the resulting colour component `hex(...)`
slice is `x14`, not a valid two-digit hex byte (whereas class 10 still
yields the valid component `05`). -/
theorem c9_fill_color_out_of_range :
    binCell [(0 : ℚ), 1, 2, 3, 4, 5, 6, 7, 8, 9, 10] (FF.fin 11) = 11 ∧
    (255 - (11 : ℤ) * 25) = -20 ∧
    (255 - (11 : ℤ) * 25) < 0 ∧
    fillColorOf 11 = "#x140000" ∧
    isHexByteStr (padTwo (pyHexSlice (255 - (11 : ℤ) * 25))) = false ∧
    isHexByteStr (padTwo (pyHexSlice (255 - (10 : ℤ) * 25))) = true := by
  refine ⟨?_, by decide, by decide, by decide, by decide, by decide⟩
  norm_num [binCell, binCellNat, digitizeRight, List.countP, List.countP.go]
